import Mathlib

/-
Verification development for the join_compile_commands_json tool
(src/src/main.rs).  The tool walks directory trees looking for files named
compile_commands.json, extracts each file's JSON-array interior by byte-level
bracket scanning, and writes a single combined JSON array to an output file.

Fragment contents are modelled as lists of characters (the source operates on
bytes; all behaviour relevant here is byte-by-byte and is mirrored faithfully
on lists).
-/

namespace JoinCC

/-- Mirrors `input.read_until(b'[', &mut buffer)` followed by `buffer.clear()`
in main.rs: everything up to and including the first open bracket is
discarded; if there is no open bracket the whole file is consumed and the
remainder is empty. -/
def afterOpen : List Char → List Char
  | [] => []
  | c :: cs => if c = '[' then cs else afterOpen cs

/-- Mirrors the loop
`while !buffer.is_empty() && buffer.last() != Some(&b']') { buffer.pop(); }`
in main.rs: elements are popped from the end until the last element is a
close bracket (or the buffer is exhausted). -/
def trimEnd (b : List Char) : List Char :=
  if b = [] then []
  else if b.getLast? = some ']' then b
  else trimEnd b.dropLast
termination_by b.length
decreasing_by
  simp only [List.length_dropLast]
  have hpos : 0 < b.length := List.length_pos.mpr (by assumption)
  omega

/-- Mirrors `if buffer.last() == Some(&b']') { buffer.pop(); }` in main.rs. -/
def popClose (b : List Char) : List Char :=
  if b.getLast? = some ']' then b.dropLast else b

/-- The content the aggregator extracts from one fragment file
(main.rs lines 78-97): drop through the first `[`, then drop trailing bytes
until a `]` is found and drop that `]` too. -/
def extract (file : List Char) : List Char :=
  popClose (trimEnd (afterOpen file))

/-- Helper reformulation of the backward scan on the reversed list:
drop elements until a `]` is met, and drop that `]` as well. -/
def stripAfterClose : List Char → List Char
  | [] => []
  | c :: cs => if c = ']' then cs else stripAfterClose cs

/-- The extraction procedure exactly as the specification words it:
discard everything up to and including the first `[` byte, then discard
bytes from the end of the remainder until a `]` byte is found and discard
that `]` byte as well. -/
def extractSpec (file : List Char) : List Char :=
  let rest := (file.dropWhile (fun c => c != '[')).drop 1
  ((rest.reverse.dropWhile (fun c => c != ']')).drop 1).reverse

/-- The aggregator loop body state (main.rs lines 76-110): given the fragment
contents in delivery order and the current `has_contents` flag, the bytes the
loop appends to the output.  A fragment with empty extracted content writes
nothing and leaves the flag unchanged; a non-empty one is preceded by a comma
iff the flag was already set, and sets the flag. -/
def writeFragments : List (List Char) → Bool → List Char
  | [], _ => []
  | f :: fs, has =>
    let c := extract f
    if c = [] then writeFragments fs has
    else (if has then ',' :: c else c) ++ writeFragments fs true

/-- The byte sequence main.rs writes to the output stream for a run whose
delivered fragments (file contents, in delivery order) are `frags`:
an opening `[`, the loop's output starting with `has_contents = false`, and a
closing `]`. -/
def mainOutput (frags : List (List Char)) : List Char :=
  '[' :: writeFragments frags false ++ [']']

/-- Models writing `written` from position 0 into a file that already holds
`prior`, with `OpenOptions::new().write(true).create(true)` as in main.rs
lines 67-72: the options do not include `truncate(true)`, so bytes of the
prior content beyond the written length survive. -/
def writeNoTruncate (prior written : List Char) : List Char :=
  written ++ prior.drop written.length

/-- The final on-disk content of compile_commands.json after a successful
run, given the file's prior content and the delivered fragments. -/
def finalFileContents (prior : List Char) (frags : List (List Char)) : List Char :=
  writeNoTruncate prior (mainOutput frags)

/-- Joins a list of element byte-strings with single comma separators, the
shape of a JSON array interior. -/
def joinElems : List (List Char) → List Char
  | [] => []
  | [e] => e
  | e :: es => e ++ ',' :: joinElems es

/-! JSON grammar (RFC 8259 / json.org), over character lists.  Strings and
numbers are recognised by executable functions; the recursive productions
(value, object, array, members, elements) are a mutual inductive family. -/

/-- JSON insignificant whitespace characters: space, tab, line feed,
carriage return. -/
def isWsChar (c : Char) : Bool :=
  c == ' ' || c == '\t' || c == '\n' || c == '\r'

/-- A character list that is entirely JSON whitespace (possibly empty),
the `ws` production. -/
def JWsP (w : List Char) : Prop := ∀ c ∈ w, isWsChar c = true

def isHexDigit (c : Char) : Bool :=
  ('0' ≤ c && c ≤ '9') || ('a' ≤ c && c ≤ 'f') || ('A' ≤ c && c ≤ 'F')

def isDigitChar (c : Char) : Bool := '0' ≤ c && c ≤ '9'

def isOneNine (c : Char) : Bool := '1' ≤ c && c ≤ '9'

/-- Recognises the rest of a JSON string token after its opening quote:
a sequence of unescaped characters (at least 0x20, not quote or backslash)
and escapes, terminated by the closing quote, with nothing after it. -/
def strBody : List Char → Bool
  | [] => false
  | c :: rest =>
    if c = '"' then rest.isEmpty
    else if c = '\\' then
      match rest with
      | [] => false
      | e :: rest' =>
        if e = 'u' then
          match rest' with
          | h1 :: h2 :: h3 :: h4 :: rest'' =>
            isHexDigit h1 && isHexDigit h2 && isHexDigit h3 && isHexDigit h4
              && strBody rest''
          | _ => false
        else
          (e == '"' || e == '\\' || e == '/' || e == 'b' || e == 'f'
            || e == 'n' || e == 'r' || e == 't') && strBody rest'
    else if ' ' ≤ c then strBody rest else false

/-- Recognises a complete JSON string token. -/
def isJString : List Char → Bool
  | [] => false
  | c :: rest => (c == '"') && strBody rest

/-- Recognises `digit+` covering the whole remaining input. -/
def numDigitsTail (s : List Char) : Bool :=
  !(s.takeWhile isDigitChar).isEmpty && (s.dropWhile isDigitChar).isEmpty

/-- Recognises the optional exponent part of a JSON number, covering the
whole remaining input. -/
def numExpOnly : List Char → Bool
  | [] => true
  | c :: rest =>
    (c == 'e' || c == 'E') &&
      (match rest with
       | [] => false
       | s :: r => if s == '+' || s == '-' then numDigitsTail r
                   else numDigitsTail rest)

/-- Recognises the optional fraction part followed by the optional exponent
part of a JSON number. -/
def numFracExp : List Char → Bool
  | '.' :: rest =>
    !(rest.takeWhile isDigitChar).isEmpty
      && numExpOnly (rest.dropWhile isDigitChar)
  | l => numExpOnly l

/-- Recognises the unsigned integer part of a JSON number followed by
fraction and exponent: `0` or a one-nine digit followed by digits. -/
def numInt : List Char → Bool
  | [] => false
  | c :: rest =>
    if c = '0' then numFracExp rest
    else if isOneNine c then numFracExp (rest.dropWhile isDigitChar)
    else false

/-- Recognises a complete JSON number token. -/
def isNumber : List Char → Bool
  | [] => false
  | c :: rest => if c = '-' then numInt rest else numInt (c :: rest)

mutual

/-- The `value` production: object, array, string, number, or literal. -/
inductive JVal : List Char → Prop where
  | str (s : List Char) (h : isJString s = true) : JVal s
  | num (s : List Char) (h : isNumber s = true) : JVal s
  | tru : JVal ['t', 'r', 'u', 'e']
  | fls : JVal ['f', 'a', 'l', 's', 'e']
  | nul : JVal ['n', 'u', 'l', 'l']
  | obj (s : List Char) (h : JObj s) : JVal s
  | arr (s : List Char) (h : JArr s) : JVal s

/-- The `object` production. -/
inductive JObj : List Char → Prop where
  | empty (w : List Char) (h : JWsP w) : JObj ('{' :: w ++ ['}'])
  | members (ms : List Char) (h : JMembers ms) : JObj ('{' :: ms ++ ['}'])

/-- The `members` production: one or more members joined by commas. -/
inductive JMembers : List Char → Prop where
  | single (m : List Char) (h : JMember m) : JMembers m
  | cons (m ms : List Char) (h : JMember m) (hs : JMembers ms) :
      JMembers (m ++ ',' :: ms)

/-- The `member` production: ws string ws ':' element. -/
inductive JMember : List Char → Prop where
  | mk (w1 s w2 e : List Char) (hw1 : JWsP w1) (hs : isJString s = true)
      (hw2 : JWsP w2) (he : JElement e) : JMember (w1 ++ s ++ w2 ++ ':' :: e)

/-- The `array` production: brackets around ws or around elements. -/
inductive JArr : List Char → Prop where
  | empty (w : List Char) (h : JWsP w) : JArr ('[' :: w ++ [']'])
  | elems (es : List Char) (h : JElements es) : JArr ('[' :: es ++ [']'])

/-- The `elements` production: one or more elements joined by commas. -/
inductive JElements : List Char → Prop where
  | single (e : List Char) (h : JElement e) : JElements e
  | cons (e es : List Char) (h : JElement e) (hs : JElements es) :
      JElements (e ++ ',' :: es)

/-- The `element` production: ws value ws. -/
inductive JElement : List Char → Prop where
  | mk (w1 v w2 : List Char) (hw1 : JWsP w1) (hv : JVal v) (hw2 : JWsP w2) :
      JElement (w1 ++ v ++ w2)
end

/-- Valid JSON content for an array body, per the `array` production of the
grammar: either pure whitespace (the body of an empty array) or a valid
`elements` list. -/
def ArrayBodyContent (i : List Char) : Prop := JWsP i ∨ JElements i

/-- The first characters a JSON value can start with. -/
def startChar (c : Char) : Bool :=
  c == '{' || c == '[' || c == '"' || c == '-' || isDigitChar c
    || c == 't' || c == 'f' || c == 'n'

/-! Directory-tree model for the walker (spawn_compile_commands_search and
find_compile_commands_files in main.rs).  A filesystem node is a plain file
or a directory with a list of named entries; paths are lists of name
components. -/

inductive FsNode where
  | file : FsNode
  | dir : List (String × FsNode) → FsNode

/-- The target file name constant of main.rs. -/
def targetName : String := "compile_commands.json"

/-- The multiset of paths the walker sends for the entries of one directory
(find_compile_commands_files): a non-directory entry whose name equals the
target is sent as a path; a directory entry starts a recursive search of its
own entries.  The concurrent tasks' sends interleave nondeterministically;
this function fixes one interleaving, and permutation invariance over entry
order is proved separately. -/
def discoverEntries : List String → List (String × FsNode) → List (List String)
  | _, [] => []
  | pre, (name, .file) :: rest =>
    (if name = targetName then [pre ++ [name]] else []) ++ discoverEntries pre rest
  | pre, (name, .dir es) :: rest =>
    discoverEntries (pre ++ [name]) es ++ discoverEntries pre rest

/-- The contribution of a single directory entry to the discovery. -/
def entryContrib (pre : List String) : String × FsNode → List (List String)
  | (name, .file) => if name = targetName then [pre ++ [name]] else []
  | (name, .dir es) => discoverEntries (pre ++ [name]) es

/-- The collection of paths sent over the whole run: main.rs spawns one
search per root argument. -/
def runWalkers (roots : List (List String × List (String × FsNode))) :
    List (List String) :=
  (roots.map fun r => discoverEntries r.1 r.2).flatten

/-- Filesystem well-formedness: within every directory, entry names are
pairwise distinct (as the OS guarantees for real directories). -/
def nodupNamesEntries : List (String × FsNode) → Bool
  | [] => true
  | (name, .file) :: rest =>
    rest.all (fun e => e.1 != name) && nodupNamesEntries rest
  | (name, .dir es) :: rest =>
    rest.all (fun e => e.1 != name) && nodupNamesEntries es && nodupNamesEntries rest

/-- Reachability of a matching file: the path, relative to a directory with
the given entries, of a non-directory entry named exactly the target,
anywhere in the tree. -/
inductive Reach : List (String × FsNode) → List String → Prop where
  | here (name : String) (rest : List (String × FsNode)) (h : name = targetName) :
      Reach ((name, .file) :: rest) [name]
  | child (name : String) (es rest : List (String × FsNode)) (q : List String)
      (h : Reach es q) : Reach ((name, .dir es) :: rest) (name :: q)
  | tail (e : String × FsNode) (rest : List (String × FsNode)) (q : List String)
      (h : Reach rest q) : Reach (e :: rest) q

/-! Failure model for the walker (C5).  A directory may be marked as failing
to list.  Modelled from the semantics of the concurrency dependency: a
traversal task that hits an I/O error panics at the `unwrap` in
spawn_compile_commands_search (main.rs line 22); the task was started with
`tokio::spawn` and its JoinHandle is discarded, so the panic is captured
inside the dropped handle and never reaches main.  The failed task's clone of
the channel sender is dropped, the aggregator's `rx.recv` loop simply ends
once all senders are gone, and main writes the closing bracket, flushes, and
returns Ok — normal termination with partial results. -/

inductive FsNodeE where
  | file (content : List Char) : FsNodeE
  | dirOk (entries : List (String × FsNodeE)) : FsNodeE
  | dirFail (entries : List (String × FsNodeE)) : FsNodeE

/-- The fragment contents delivered to the aggregator.  A failing directory's
subtree contributes nothing: its task panics before sending, and the panic is
swallowed because the JoinHandle is never awaited; all other tasks proceed
unaffected. -/
def collectFragments : List (String × FsNodeE) → List (List Char)
  | [] => []
  | (name, .file c) :: rest =>
    (if name = targetName then [c] else []) ++ collectFragments rest
  | (_, .dirOk es) :: rest => collectFragments es ++ collectFragments rest
  | (_, .dirFail _) :: rest => collectFragments rest

/-- The run outcome for a tree that may contain failing directories:
`some` output means the process completed normally (main returned Ok and
wrote the output); `none` would mean a fatal, unrecovered termination.
Walker-task panics never make main return an error, so the result is always
normal completion on the fragments that did arrive. -/
def runResult (entries : List (String × FsNodeE)) : Option (List Char) :=
  some (mainOutput (collectFragments entries))

/-- The capacity argument passed to `mpsc::channel` in main.rs line 52. -/
def queueCapacity : Nat := 32

/-- Models a send on the tokio bounded mpsc channel created by
`mpsc::channel(32)`: a send completes without waiting for the receiver to
drain items exactly when the number of in-flight items is below the channel
capacity; when the buffer is full the sender suspends. -/
def sendCompletesWithoutWaiting (inFlight : Nat) : Bool :=
  inFlight < queueCapacity

/-! Theorems. -/

/-! Basic lemmas connecting the loop-style definitions with dropWhile form. -/

theorem afterOpen_eq (l : List Char) :
    afterOpen l = (l.dropWhile (fun c => c != '[')).drop 1 := by
  induction l with
  | nil => rfl
  | cons c cs ih =>
    by_cases h : c = '['
    · simp [afterOpen, h, List.dropWhile]
    · have hb : (c != '[') = true := by simp [h]
      simp [afterOpen, h, List.dropWhile_cons, hb, ih]

theorem stripAfterClose_eq (l : List Char) :
    stripAfterClose l = (l.dropWhile (fun c => c != ']')).drop 1 := by
  induction l with
  | nil => rfl
  | cons c cs ih =>
    by_cases h : c = ']'
    · simp [stripAfterClose, h, List.dropWhile]
    · have hb : (c != ']') = true := by simp [h]
      simp [stripAfterClose, h, List.dropWhile_cons, hb, ih]

theorem trimEnd_nil : trimEnd [] = [] := by
  unfold trimEnd
  simp

theorem trimEnd_concat_close (b : List Char) :
    trimEnd (b ++ [']']) = b ++ [']'] := by
  unfold trimEnd
  simp

theorem trimEnd_concat (b : List Char) (c : Char) (h : c ≠ ']') :
    trimEnd (b ++ [c]) = trimEnd b := by
  rw [trimEnd]
  simp [h, List.dropLast_concat, List.getLast?_concat]

theorem popClose_trimEnd (b : List Char) :
    popClose (trimEnd b) = (stripAfterClose b.reverse).reverse := by
  induction b using List.reverseRecOn with
  | nil => simp [trimEnd_nil, popClose, stripAfterClose]
  | append_singleton l c ih =>
    by_cases h : c = ']'
    · subst h
      simp [trimEnd_concat_close, popClose, stripAfterClose, List.dropLast_concat]
    · rw [trimEnd_concat l c h, ih]
      simp [stripAfterClose, h]

theorem extract_eq (f : List Char) :
    extract f = (stripAfterClose (afterOpen f).reverse).reverse := by
  unfold extract
  exact popClose_trimEnd _

theorem afterOpen_of_not_mem (f : List Char) (h : '[' ∉ f) : afterOpen f = [] := by
  induction f with
  | nil => rfl
  | cons c cs ih =>
    have hc : c ≠ '[' := fun hc => h (hc ▸ List.mem_cons_self c cs)
    simp only [afterOpen, if_neg hc]
    exact ih fun hm => h (List.mem_cons_of_mem c hm)

theorem stripAfterClose_of_not_mem (l : List Char) (h : ']' ∉ l) :
    stripAfterClose l = [] := by
  induction l with
  | nil => rfl
  | cons c cs ih =>
    have hc : c ≠ ']' := fun hc => h (hc ▸ List.mem_cons_self c cs)
    simp only [stripAfterClose, if_neg hc]
    exact ih fun hm => h (List.mem_cons_of_mem c hm)

theorem extract_of_no_close_after_open (f : List Char) (h : ']' ∉ afterOpen f) :
    extract f = [] := by
  rw [extract_eq, stripAfterClose_of_not_mem, List.reverse_nil]
  simpa using h

/-- Concrete evaluation: the empty-array fragment extracts to nothing. -/
theorem extract_empty_array : extract ['[', ']'] = [] := by
  rw [extract_eq]
  simp [afterOpen, stripAfterClose]

/-- Skipping a fragment with empty extracted content anywhere in the delivery
order leaves the loop output unchanged, for every incoming flag value. -/
theorem writeFragments_skip (f : List Char) (h : extract f = [])
    (post : List (List Char)) :
    ∀ (pre : List (List Char)) (has : Bool),
      writeFragments (pre ++ f :: post) has = writeFragments (pre ++ post) has := by
  intro pre
  induction pre with
  | nil => intro has; simp [writeFragments, h]
  | cons g pre ih =>
    intro has
    by_cases hg : extract g = [] <;> simp [writeFragments, hg, ih]

/-- C3: for every fragment byte sequence, the content the aggregator extracts
equals the result of the procedure the specification describes: discard
everything up to and including the first open bracket, then discard bytes from
the end of the remainder until a close bracket is found, discarding that close
bracket as well. -/
theorem c3_extract_matches_described_procedure :
    ∀ f : List Char, extract f = extractSpec f := by
  intro f
  simp only [extract_eq, stripAfterClose_eq, afterOpen_eq, extractSpec]

/-- C7: a fragment whose extracted content is empty writes no bytes and leaves
the has-written flag unchanged, so the output of a run including it equals the
output of the same run without it. -/
theorem c7_empty_fragment_is_noop (f : List Char) (h : extract f = []) :
    (∀ (fs : List (List Char)) (has : Bool),
        writeFragments (f :: fs) has = writeFragments fs has)
    ∧ ∀ (pre post : List (List Char)),
        mainOutput (pre ++ f :: post) = mainOutput (pre ++ post) := by
  constructor
  · intro fs has
    simp [writeFragments, h]
  · intro pre post
    unfold mainOutput
    rw [writeFragments_skip f h post pre false]

theorem c7_witness :
    extract ['[', ']'] = []
    ∧ writeFragments [['[', ']'], ['1']] false = writeFragments [['1']] false
    ∧ mainOutput [['1'], ['[', ']']] = mainOutput [['1']] :=
  ⟨extract_empty_array,
   (c7_empty_fragment_is_noop ['[', ']'] extract_empty_array).1 [['1']] false,
   (c7_empty_fragment_is_noop ['[', ']'] extract_empty_array).2 [['1']] []⟩

/-- C9: a fragment containing no open bracket at all is consumed whole by the
forward scan, extracts to nothing, and contributes no bytes to the output,
leaving the has-written flag unchanged. -/
theorem c9_no_open_bracket (f : List Char) (h : '[' ∉ f) :
    afterOpen f = [] ∧ extract f = []
    ∧ ∀ (fs : List (List Char)) (has : Bool),
        writeFragments (f :: fs) has = writeFragments fs has := by
  have h1 : afterOpen f = [] := afterOpen_of_not_mem f h
  have h2 : extract f = [] := by
    apply extract_of_no_close_after_open
    rw [h1]
    exact List.not_mem_nil _
  exact ⟨h1, h2, fun fs has => by simp [writeFragments, h2]⟩

theorem c9_witness :
    '[' ∉ ['x', 'y', 'z']
    ∧ afterOpen ['x', 'y', 'z'] = []
    ∧ extract ['x', 'y', 'z'] = []
    ∧ writeFragments [['x', 'y', 'z'], ['[', '1', ']']] false
        = writeFragments [['[', '1', ']']] false :=
  ⟨by decide,
   (c9_no_open_bracket ['x', 'y', 'z'] (by decide)).1,
   (c9_no_open_bracket ['x', 'y', 'z'] (by decide)).2.1,
   (c9_no_open_bracket ['x', 'y', 'z'] (by decide)).2.2 [['[', '1', ']']] false⟩

/-- C10: if no close bracket occurs after the fragment's first open bracket
(in particular when the last close bracket of the file precedes the first open
bracket, or there is no close bracket at all), the entire remainder after the
first open bracket is discarded and the fragment contributes nothing. -/
theorem c10_no_close_after_open (f : List Char) (h : ']' ∉ afterOpen f) :
    extract f = []
    ∧ ∀ (fs : List (List Char)) (has : Bool),
        writeFragments (f :: fs) has = writeFragments fs has := by
  have h2 : extract f = [] := extract_of_no_close_after_open f h
  exact ⟨h2, fun fs has => by simp [writeFragments, h2]⟩

theorem c10_witness :
    ']' ∉ afterOpen ['a', ']', 'b', '[', 'c', 'd']
    ∧ extract ['a', ']', 'b', '[', 'c', 'd'] = []
    ∧ writeFragments [['a', ']', 'b', '[', 'c', 'd'], ['[', '2', ']']] true
        = writeFragments [['[', '2', ']']] true :=
  ⟨by decide,
   (c10_no_close_after_open ['a', ']', 'b', '[', 'c', 'd'] (by decide)).1,
   (c10_no_close_after_open ['a', ']', 'b', '[', 'c', 'd'] (by decide)).2
     [['[', '2', ']']] true⟩

theorem joinElems_cons_cons (e f : List Char) (es : List (List Char)) :
    joinElems (e :: f :: es) = e ++ ',' :: joinElems (f :: es) := rfl

theorem joinElems_ne_nil (es : List (List Char)) (h : ∀ e ∈ es, e ≠ [])
    (hne : es ≠ []) : joinElems es ≠ [] := by
  match es with
  | [] => exact absurd rfl hne
  | [e] => exact h e (List.mem_singleton_self e)
  | e :: f :: es => simp [joinElems_cons_cons, h e (List.mem_cons_self e _)]

theorem joinElems_append (as bs : List (List Char)) (ha : as ≠ []) (hb : bs ≠ []) :
    joinElems (as ++ bs) = joinElems as ++ ',' :: joinElems bs := by
  induction as with
  | nil => exact absurd rfl ha
  | cons a as ih =>
    cases as with
    | nil =>
      cases bs with
      | nil => exact absurd rfl hb
      | cons b bs => simp [joinElems, joinElems_cons_cons]
    | cons a2 as' =>
      have h' := ih (by simp)
      simp only [List.cons_append] at h'
      simp only [List.cons_append, joinElems_cons_cons]
      rw [h']
      simp

/-- Extraction of a well-bracketed fragment: a fragment consisting of an open
bracket, a body, and a final close bracket extracts to exactly the body. -/
theorem extract_wrapped (body : List Char) :
    extract ('[' :: body ++ [']']) = body := by
  unfold extract
  have h1 : afterOpen ('[' :: body ++ [']']) = body ++ [']'] := by
    simp [afterOpen]
  rw [h1, trimEnd_concat_close]
  simp [popClose, List.getLast?_concat, List.dropLast_concat]

/-- Characterization of the merge loop: for fragments whose extracted
interiors are comma-joins of nonempty element lists, the loop output is the
comma-join of the concatenation of all the element lists, with a leading comma
exactly when the flag was already set and anything is written at all. -/
theorem writeFragments_forall2 (frags : List (List Char))
    (elems : List (List (List Char)))
    (h : List.Forall₂
      (fun f es => extract f = joinElems es ∧ ∀ e ∈ es, e ≠ []) frags elems) :
    ∀ has : Bool,
      writeFragments frags has =
        if elems.flatten = [] then []
        else if has then ',' :: joinElems elems.flatten
        else joinElems elems.flatten := by
  induction h with
  | nil => intro has; simp [writeFragments]
  | @cons f es fs rest hrel htail ih =>
    intro has
    obtain ⟨he, hne⟩ := hrel
    by_cases hes : es = []
    · subst hes
      have hex : extract f = [] := by simp [he, joinElems]
      simp [writeFragments, hex, ih has]
    · have hjne : joinElems es ≠ [] := joinElems_ne_nil es hne hes
      have hex : ¬ extract f = [] := by rw [he]; exact hjne
      have hl : writeFragments (f :: fs) has =
          (if has then ',' :: extract f else extract f) ++ writeFragments fs true := by
        simp [writeFragments, hex]
      by_cases hrest : rest.flatten = []
      · have ihy := ih true
        rw [if_pos hrest] at ihy
        have hjoin : (es :: rest).flatten = es := by simp [hrest]
        rw [hl, ihy, List.append_nil, hjoin, if_neg hes, he]
      · have ihy := ih true
        rw [if_neg hrest, if_pos rfl] at ihy
        have hjoin : (es :: rest).flatten = es ++ rest.flatten := by simp
        have hja := joinElems_append es rest.flatten hes hrest
        have hne' : ¬ (es :: rest).flatten = [] := by
          rw [hjoin]
          intro hcon
          exact hes (List.append_eq_nil.mp hcon).1
        rw [hl, ihy, if_neg hne', hjoin, hja, he]
        cases has <;> simp

/-- C6: for every delivery order, when each delivered fragment's extracted
interior is the comma-join of its (nonempty) elements, the combined output is
the array wrapping the comma-join of the concatenation of all the fragments'
element lists in delivery order — so every element occurrence of every source
fragment appears byte-for-byte exactly once in the output. -/
theorem c6_round_trip (frags : List (List Char)) (elems : List (List (List Char)))
    (h : List.Forall₂
      (fun f es => extract f = joinElems es ∧ ∀ e ∈ es, e ≠ []) frags elems) :
    mainOutput frags = '[' :: joinElems elems.flatten ++ [']'] := by
  unfold mainOutput
  rw [writeFragments_forall2 frags elems h false]
  by_cases hj : elems.flatten = []
  · simp [hj, joinElems]
  · simp [hj]

theorem c6_witness :
    mainOutput [['[', '1', ',', '2', ']'], ['[', '3', ']']]
      = ['[', '1', ',', '2', ',', '3', ']'] := by
  have h1 : extract ['[', '1', ',', '2', ']'] = joinElems [['1'], ['2']] :=
    extract_wrapped ['1', ',', '2']
  have h2 : extract ['[', '3', ']'] = joinElems [['3']] :=
    extract_wrapped ['3']
  exact c6_round_trip _ [[['1'], ['2']], [['3']]]
    (List.Forall₂.cons ⟨h1, by decide⟩
      (List.Forall₂.cons ⟨h2, by decide⟩ List.Forall₂.nil))

theorem jwsp_nil : JWsP [] := fun c hc => absurd hc (List.not_mem_nil c)

/-- Joining two valid `elements` lists with a comma yields a valid
`elements` list. -/
theorem jelements_join (b : List Char) (hb : JElements b) :
    ∀ a : List Char, JElements a → JElements (a ++ ',' :: b)
  | _, .single e he => JElements.cons e b he hb
  | _, .cons e es he hs => by
    have ih := jelements_join b hb es hs
    have hassoc : (e ++ ',' :: es) ++ ',' :: b = e ++ ',' :: (es ++ ',' :: b) := by
      simp
    rw [hassoc]
    exact JElements.cons _ _ he ih
termination_by a _ => a.length
decreasing_by simp [List.length_append]; omega

/-- Every JSON value is nonempty and starts with a bracket, brace, quote,
minus sign, digit, or the first letter of a literal. -/
theorem jval_head (v : List Char) (h : JVal v) :
    ∃ c cs, v = c :: cs ∧ startChar c = true := by
  cases h with
  | str s hs =>
    cases v with
    | nil => simp [isJString] at hs
    | cons c cs =>
      simp only [isJString, Bool.and_eq_true, beq_iff_eq] at hs
      exact ⟨c, cs, rfl, by simp [startChar, hs.1]⟩
  | num s hn =>
    cases v with
    | nil => simp [isNumber] at hn
    | cons c cs =>
      refine ⟨c, cs, rfl, ?_⟩
      by_cases hc : c = '-'
      · simp [startChar, hc]
      · rw [show isNumber (c :: cs) = numInt (c :: cs) from by simp [isNumber, hc]] at hn
        by_cases h0 : c = '0'
        · simp [startChar, isDigitChar, h0]
        · by_cases h1 : isOneNine c = true
          · have hd : isDigitChar c = true := by
              simp only [isOneNine, Bool.and_eq_true, decide_eq_true_eq] at h1
              simp only [isDigitChar, Bool.and_eq_true, decide_eq_true_eq]
              exact ⟨le_trans (by decide) h1.1, h1.2⟩
            simp [startChar, hd]
          · simp [numInt, h0, h1] at hn
  | tru => exact ⟨'t', ['r', 'u', 'e'], rfl, by decide⟩
  | fls => exact ⟨'f', ['a', 'l', 's', 'e'], rfl, by decide⟩
  | nul => exact ⟨'n', ['u', 'l', 'l'], rfl, by decide⟩
  | obj s hs =>
    cases hs with
    | empty w hw => exact ⟨'{', w ++ ['}'], rfl, by decide⟩
    | members ms hm => exact ⟨'{', ms ++ ['}'], rfl, by decide⟩
  | arr s hs =>
    cases hs with
    | empty w hw => exact ⟨'[', w ++ [']'], rfl, by decide⟩
    | elems es he => exact ⟨'[', es ++ [']'], rfl, by decide⟩

/-- Every JSON element decomposes as whitespace, a value's start character,
the value's tail, and trailing whitespace. -/
theorem jelement_decomp (e : List Char) (h : JElement e) :
    ∃ w1 c cs w2, e = w1 ++ c :: (cs ++ w2) ∧ JWsP w1 ∧ startChar c = true := by
  cases h with
  | mk w1 v w2 hw1 hv hw2 =>
    obtain ⟨c, cs, rfl, hc⟩ := jval_head v hv
    exact ⟨w1, c, cs, w2, by simp, hw1, hc⟩

theorem jelement_ne_nil (e : List Char) (h : JElement e) : e ≠ [] := by
  obtain ⟨w1, c, cs, w2, rfl, _, _⟩ := jelement_decomp e h
  simp

theorem jelements_ne_nil (es : List Char) (h : JElements es) : es ≠ [] := by
  cases h with
  | single e he => exact jelement_ne_nil es he
  | cons e es' he hs =>
    obtain ⟨w1, c, cs, w2, rfl, _, _⟩ := jelement_decomp e he
    simp

/-- The merge loop output on fragments with empty-or-elements interiors:
either nothing has been written under both flag values, or the flag-false
output is a valid `elements` list and the flag-true output prefixes it with
a comma. -/
theorem writeFragments_jelements (frags : List (List Char))
    (h : ∀ f ∈ frags, extract f = [] ∨ JElements (extract f)) :
    (writeFragments frags false = [] ∧ writeFragments frags true = [])
    ∨ (JElements (writeFragments frags false)
       ∧ writeFragments frags true = ',' :: writeFragments frags false) := by
  induction frags with
  | nil => exact Or.inl ⟨rfl, rfl⟩
  | cons f fs ih =>
    have hf := h f (List.mem_cons_self f fs)
    have ih' := ih fun g hg => h g (List.mem_cons_of_mem f hg)
    rcases hf with hf | hf
    · simpa [writeFragments, hf] using ih'
    · have hfne : ¬ extract f = [] := fun hc => jelements_ne_nil _ hf hc
      have hfalse : writeFragments (f :: fs) false = extract f ++ writeFragments fs true := by
        simp [writeFragments, hfne]
      have htrue : writeFragments (f :: fs) true =
          ',' :: (extract f ++ writeFragments fs true) := by
        simp [writeFragments, hfne]
      right
      rw [hfalse, htrue]
      refine ⟨?_, rfl⟩
      rcases ih' with ⟨h0, h1⟩ | ⟨h0, h1⟩
      · rw [h1, List.append_nil]
        exact hf
      · rw [h1]
        exact jelements_join _ h0 _ hf

/-- C1 amended: if every fragment's extracted interior is empty or a valid
JSON `elements` list (the comma-separated element list between its outermost
brackets), the byte sequence the aggregator writes is a syntactically valid
JSON array. -/
theorem c1_amended_valid_json_array (frags : List (List Char))
    (h : ∀ f ∈ frags, extract f = [] ∨ JElements (extract f)) :
    JArr (mainOutput frags) := by
  unfold mainOutput
  rcases writeFragments_jelements frags h with ⟨h0, _⟩ | ⟨h0, _⟩
  · rw [h0]
    exact JArr.empty [] jwsp_nil
  · exact JArr.elems _ h0

/-- A one-digit number is a valid JSON `elements` list. -/
theorem jelements_one : JElements ['1'] :=
  JElements.single _ (JElement.mk [] ['1'] [] jwsp_nil (JVal.num _ (by decide)) jwsp_nil)

theorem c1_amended_witness :
    (∀ f ∈ [['[', '1', ']']], extract f = [] ∨ JElements (extract f))
    ∧ JArr (mainOutput [['[', '1', ']']]) := by
  have e1 : extract ['[', '1', ']'] = ['1'] := extract_wrapped ['1']
  have hyp : ∀ f ∈ [['[', '1', ']']], extract f = [] ∨ JElements (extract f) := by
    intro f hf
    rw [List.mem_singleton] at hf
    subst hf
    exact Or.inr (e1 ▸ jelements_one)
  exact ⟨hyp, c1_amended_valid_json_array _ hyp⟩

/-! Counterexample infrastructure for the claim as stated: a whitespace-only
interior is valid JSON content for an array body (an empty array may hold
whitespace between its brackets), but merging such a fragment with a
non-empty one produces an invalid array. -/

theorem cons_append_eq {α} {l₁ l₂ l : List α} {a : α} (h : l₁ ++ l₂ = a :: l) :
    (l₁ = [] ∧ l₂ = a :: l) ∨ ∃ t, l₁ = a :: t ∧ t ++ l₂ = l := by
  cases l₁ with
  | nil => exact Or.inl ⟨rfl, h⟩
  | cons b t =>
    rw [List.cons_append] at h
    injection h with h1 h2
    exact Or.inr ⟨t, by rw [h1], h2⟩

theorem not_jelement_space : ¬ JElement [' '] := by
  intro h
  obtain ⟨w1, c, cs, w2, heq, hw1, hc⟩ := jelement_decomp _ h
  rcases cons_append_eq heq.symm with ⟨hw, hrest⟩ | ⟨t, hwt, hrest⟩
  · injection hrest with h1 h2
    rw [h1] at hc
    exact absurd hc (by decide)
  · simp at hrest

theorem not_jelement_space_comma_one : ¬ JElement [' ', ',', '1'] := by
  intro h
  obtain ⟨w1, c, cs, w2, heq, hw1, hc⟩ := jelement_decomp _ h
  rcases cons_append_eq heq.symm with ⟨hw, hrest⟩ | ⟨t, hwt, hrest⟩
  · injection hrest with h1 h2
    rw [h1] at hc
    exact absurd hc (by decide)
  · rcases cons_append_eq hrest with ⟨ht, hrest2⟩ | ⟨t2, ht2, hrest2⟩
    · injection hrest2 with h1 h2
      rw [h1] at hc
      exact absurd hc (by decide)
    · have hmem : ',' ∈ w1 := by
        rw [hwt, ht2]
        exact List.mem_cons_of_mem ' ' (List.mem_cons_self ',' t2)
      have := hw1 ',' hmem
      exact absurd this (by decide)

/-- Inversion for the `elements` production. -/
theorem jelements_inv (s : List Char) (h : JElements s) :
    JElement s ∨ ∃ e es, s = e ++ ',' :: es ∧ JElement e ∧ JElements es := by
  cases h with
  | single e he => exact Or.inl he
  | cons e es he hs => exact Or.inr ⟨e, es, rfl, he, hs⟩

theorem not_jelements_space_comma_one : ¬ JElements [' ', ',', '1'] := by
  intro h
  rcases jelements_inv _ h with he | ⟨e, es, heq, he, hs⟩
  · exact not_jelement_space_comma_one he
  · rcases cons_append_eq heq.symm with ⟨he0, hrest⟩ | ⟨t, het, hrest⟩
    · injection hrest with h1 h2
      exact absurd h1 (by decide)
    · rcases cons_append_eq hrest with ⟨ht0, hrest2⟩ | ⟨t2, ht2, hrest2⟩
      · injection hrest2 with h1 h2
        have he' : e = [' '] := by rw [het, ht0]
        rw [he'] at he
        exact not_jelement_space he
      · rcases cons_append_eq hrest2 with ⟨ht3, hrest3⟩ | ⟨t3, ht3, hrest3⟩
        · injection hrest3 with h1 h2
          exact absurd h1 (by decide)
        · simp at hrest3

/-- Inversion for the `array` production. -/
theorem jarr_inv (s : List Char) (h : JArr s) :
    (∃ w, s = '[' :: w ++ [']'] ∧ JWsP w)
    ∨ ∃ es, s = '[' :: es ++ [']'] ∧ JElements es := by
  cases h with
  | empty w hw => exact Or.inl ⟨w, rfl, hw⟩
  | elems es he => exact Or.inr ⟨es, rfl, he⟩

theorem not_jarr_space_comma_one : ¬ JArr ['[', ' ', ',', '1', ']'] := by
  intro h
  rcases jarr_inv _ h with ⟨w, heq, hw⟩ | ⟨es, heq, he⟩
  · injection heq with h1 h2
    have hw' : w = [' ', ',', '1'] := by
      have := congrArg List.dropLast h2.symm
      simpa [List.dropLast_concat] using this
    have := hw ',' (by rw [hw']; decide)
    exact absurd this (by decide)
  · injection heq with h1 h2
    have hes : es = [' ', ',', '1'] := by
      have := congrArg List.dropLast h2.symm
      simpa [List.dropLast_concat] using this
    rw [hes] at he
    exact not_jelements_space_comma_one he

/-- C1 counterexample: both fragment interiors are valid JSON content for an
array body per the grammar (a whitespace body and an elements body), yet the
written output is not a valid JSON array.  The delivered fragments hold the
five bytes of an empty array with an inner space and the three bytes of a
one-element array; the output is open bracket, space, comma, one, close
bracket, which no JSON array production derives. -/
theorem c1_counterexample :
    (∀ f ∈ [['[', ' ', ']'], ['[', '1', ']']], ArrayBodyContent (extract f))
    ∧ mainOutput [['[', ' ', ']'], ['[', '1', ']']] = ['[', ' ', ',', '1', ']']
    ∧ ¬ JArr (mainOutput [['[', ' ', ']'], ['[', '1', ']']]) := by
  have e1 : extract ['[', ' ', ']'] = [' '] := extract_wrapped [' ']
  have e2 : extract ['[', '1', ']'] = ['1'] := extract_wrapped ['1']
  have hmain : mainOutput [['[', ' ', ']'], ['[', '1', ']']]
      = ['[', ' ', ',', '1', ']'] := by
    simp [mainOutput, writeFragments, e1, e2]
  refine ⟨?_, hmain, ?_⟩
  · intro f hf
    rcases List.mem_cons.mp hf with hf | hf
    · subst hf
      have hws : JWsP [' '] := by
        intro c hc
        rw [List.mem_singleton] at hc
        subst hc
        decide
      exact Or.inl (e1 ▸ hws)
    · rw [List.mem_singleton] at hf
      subst hf
      exact Or.inr (e2 ▸ jelements_one)
  · rw [hmain]
    exact not_jarr_space_comma_one

theorem reach_nil_iff (q : List String) : Reach [] q ↔ False := by
  constructor
  · intro h
    cases h
  · intro h
    exact h.elim

theorem reach_file_cons_iff (name : String) (rest : List (String × FsNode))
    (q : List String) :
    Reach ((name, .file) :: rest) q ↔ (q = [name] ∧ name = targetName) ∨ Reach rest q := by
  constructor
  · intro h
    cases h with
    | here _ _ hn => exact Or.inl ⟨rfl, hn⟩
    | tail _ _ _ h => exact Or.inr h
  · rintro (⟨rfl, hn⟩ | h)
    · exact Reach.here name rest hn
    · exact Reach.tail _ rest q h

theorem reach_dir_cons_iff (name : String) (es rest : List (String × FsNode))
    (q : List String) :
    Reach ((name, .dir es) :: rest) q
      ↔ (∃ q', q = name :: q' ∧ Reach es q') ∨ Reach rest q := by
  constructor
  · intro h
    cases h with
    | child _ _ _ q' h => exact Or.inl ⟨q', rfl, h⟩
    | tail _ _ _ h => exact Or.inr h
  · rintro (⟨q', rfl, h⟩ | h)
    · exact Reach.child name es rest q' h
    · exact Reach.tail _ rest q h

/-- Every reachable matching path is nonempty and starts with the name of
one of the directory's entries. -/
theorem reach_shape (es : List (String × FsNode)) (q : List String)
    (h : Reach es q) : ∃ n q', q = n :: q' ∧ n ∈ es.map Prod.fst := by
  induction h with
  | here name rest hn => exact ⟨name, [], rfl, by simp⟩
  | child name es' rest q' h ih => exact ⟨name, q', rfl, by simp⟩
  | tail e rest q h ih =>
    obtain ⟨n, q', rfl, hn⟩ := ih
    exact ⟨n, q', rfl, by simp [hn]⟩

/-- Membership characterization of the discovery: a path is sent iff it is
the root prefix followed by the relative path of a reachable matching file. -/
theorem mem_discoverEntries :
    ∀ (es : List (String × FsNode)) (pre p : List String),
      p ∈ discoverEntries pre es ↔ ∃ q, Reach es q ∧ p = pre ++ q
  | [], pre, p => by simp [discoverEntries, reach_nil_iff]
  | (name, .file) :: rest, pre, p => by
    have ih := mem_discoverEntries rest pre p
    constructor
    · intro hp
      simp only [discoverEntries] at hp
      rcases List.mem_append.mp hp with hp | hp
      · by_cases hn : name = targetName
        · rw [if_pos hn, List.mem_singleton] at hp
          exact ⟨[name], (reach_file_cons_iff name rest [name]).mpr (Or.inl ⟨rfl, hn⟩), hp⟩
        · rw [if_neg hn] at hp
          exact absurd hp (List.not_mem_nil p)
      · obtain ⟨q, hr, hpq⟩ := ih.mp hp
        exact ⟨q, Reach.tail _ _ _ hr, hpq⟩
    · rintro ⟨q, hr, rfl⟩
      rw [reach_file_cons_iff] at hr
      simp only [discoverEntries]
      rcases hr with ⟨rfl, hn⟩ | hr
      · exact List.mem_append_left _ (by rw [if_pos hn]; exact List.mem_singleton_self _)
      · exact List.mem_append_right _ (ih.mpr ⟨q, hr, rfl⟩)
  | (name, .dir es) :: rest, pre, p => by
    have ih1 := mem_discoverEntries es (pre ++ [name]) p
    have ih2 := mem_discoverEntries rest pre p
    constructor
    · intro hp
      simp only [discoverEntries] at hp
      rcases List.mem_append.mp hp with hp | hp
      · obtain ⟨q, hr, hpq⟩ := ih1.mp hp
        exact ⟨name :: q, Reach.child name es rest q hr, by rw [hpq]; simp⟩
      · obtain ⟨q, hr, hpq⟩ := ih2.mp hp
        exact ⟨q, Reach.tail _ _ _ hr, hpq⟩
    · rintro ⟨q, hr, rfl⟩
      rw [reach_dir_cons_iff] at hr
      simp only [discoverEntries]
      rcases hr with ⟨q', rfl, hr⟩ | hr
      · exact List.mem_append_left _ (ih1.mpr ⟨q', hr, by simp⟩)
      · exact List.mem_append_right _ (ih2.mpr ⟨q, hr, rfl⟩)

theorem all_names_ne (rest : List (String × FsNode)) (name : String)
    (h : rest.all (fun e => e.1 != name) = true) :
    ∀ n ∈ rest.map Prod.fst, n ≠ name := by
  intro n hn
  rw [List.mem_map] at hn
  obtain ⟨e, he, rfl⟩ := hn
  have := List.all_eq_true.mp h e he
  simpa using this

/-- With distinct entry names at every directory level, every matching file
is discovered exactly once: the sent path list has no duplicates. -/
theorem nodup_discoverEntries :
    ∀ (es : List (String × FsNode)) (pre : List String),
      nodupNamesEntries es = true → (discoverEntries pre es).Nodup
  | [], pre, _ => by simp [discoverEntries]
  | (name, .file) :: rest, pre, h => by
    simp only [nodupNamesEntries, Bool.and_eq_true] at h
    obtain ⟨hall, hrest⟩ := h
    have ihr := nodup_discoverEntries rest pre hrest
    simp only [discoverEntries]
    by_cases hn : name = targetName
    · rw [if_pos hn]
      refine List.Nodup.append (by simp) ihr ?_
      intro a ha hb
      rw [List.mem_singleton] at ha
      subst ha
      obtain ⟨q, hr, hpq⟩ := (mem_discoverEntries rest pre _).mp hb
      obtain ⟨n, q', hq, hnmem⟩ := reach_shape rest q hr
      have hqe : [name] = q := List.append_cancel_left hpq
      rw [← hqe] at hq
      injection hq with hq1 hq2
      exact all_names_ne rest name hall n hnmem hq1.symm
    · rw [if_neg hn]
      simpa using ihr
  | (name, .dir es) :: rest, pre, h => by
    simp only [nodupNamesEntries, Bool.and_eq_true] at h
    obtain ⟨⟨hall, hes⟩, hrest⟩ := h
    have ih1 := nodup_discoverEntries es (pre ++ [name]) hes
    have ihr := nodup_discoverEntries rest pre hrest
    simp only [discoverEntries]
    refine List.Nodup.append ih1 ihr ?_
    intro p hp1 hp2
    obtain ⟨q1, hr1, hpq1⟩ := (mem_discoverEntries es (pre ++ [name]) p).mp hp1
    obtain ⟨q2, hr2, hpq2⟩ := (mem_discoverEntries rest pre p).mp hp2
    obtain ⟨n2, q2', hq2, hn2⟩ := reach_shape rest q2 hr2
    have heq : pre ++ ([name] ++ q1) = pre ++ q2 := by
      rw [← List.append_assoc, ← hpq1, hpq2]
    have hq : [name] ++ q1 = q2 := List.append_cancel_left heq
    rw [hq2] at hq
    injection hq with hq1 hq2'
    exact all_names_ne rest name hall n2 hn2 hq1.symm

theorem discoverEntries_cons (pre : List String) (x : String × FsNode)
    (l : List (String × FsNode)) :
    discoverEntries pre (x :: l) = entryContrib pre x ++ discoverEntries pre l := by
  obtain ⟨name, node⟩ := x
  cases node <;> simp [discoverEntries, entryContrib]

/-- The discovered multiset is invariant under permuting a directory's entry
list: traversal order does not change what is discovered, only the order of
sends. -/
theorem discoverEntries_perm (pre : List String)
    {es es' : List (String × FsNode)} (h : es.Perm es') :
    (discoverEntries pre es).Perm (discoverEntries pre es') := by
  induction h with
  | nil => exact List.Perm.refl _
  | cons x h ih =>
    rw [discoverEntries_cons, discoverEntries_cons]
    exact List.Perm.append_left _ ih
  | swap x y l =>
    rw [discoverEntries_cons, discoverEntries_cons,
      discoverEntries_cons, discoverEntries_cons]
    have hcomm := @List.perm_append_comm _ (entryContrib pre y) (entryContrib pre x)
    have := hcomm.append_right (discoverEntries pre l)
    simpa [List.append_assoc] using this
  | trans h1 h2 ih1 ih2 => exact ih1.trans ih2

theorem runWalkers_cons (r : List String × List (String × FsNode))
    (rs : List (List String × List (String × FsNode))) :
    runWalkers (r :: rs) = discoverEntries r.1 r.2 ++ runWalkers rs := by
  simp [runWalkers]

/-- C4 counterexample: with the same root supplied twice as an argument, the
matching file under it is sent twice, so discovery is not exactly-once over
an arbitrary collection of search roots, even though every directory is
well-formed. -/
theorem c4_counterexample :
    (∀ r ∈ [((["r"] : List String), [("compile_commands.json", FsNode.file)]),
            (["r"], [("compile_commands.json", FsNode.file)])],
        nodupNamesEntries r.2 = true)
    ∧ runWalkers [(["r"], [("compile_commands.json", FsNode.file)]),
                  (["r"], [("compile_commands.json", FsNode.file)])]
        = [["r", "compile_commands.json"], ["r", "compile_commands.json"]]
    ∧ ¬ (runWalkers [(["r"], [("compile_commands.json", FsNode.file)]),
                     (["r"], [("compile_commands.json", FsNode.file)])]).Nodup := by
  have heval : runWalkers [(["r"], [("compile_commands.json", FsNode.file)]),
                  (["r"], [("compile_commands.json", FsNode.file)])]
      = [["r", "compile_commands.json"], ["r", "compile_commands.json"]] := by
    simp [runWalkers, discoverEntries, targetName]
  refine ⟨?_, heval, ?_⟩
  · intro r hr
    rcases List.mem_cons.mp hr with rfl | hr
    · simp [nodupNamesEntries]
    · rw [List.mem_singleton] at hr
      subst hr
      simp [nodupNamesEntries]
  · rw [heval]
    simp

/-- C4 amended: provided the search-root paths are pairwise non-overlapping
(no duplicates and none an ancestor of another) and every directory has
distinct entry names, the collection of discovered paths is exactly the set
of matching files reachable under some root, each discovered exactly once;
and independently of traversal order, since permuting any directory's entry
list only permutes the discovered collection. -/
theorem c4_amended_discovery (roots : List (List String × List (String × FsNode)))
    (hwf : ∀ r ∈ roots, nodupNamesEntries r.2 = true)
    (hsep : roots.Pairwise fun r1 r2 => ¬ r1.1 <+: r2.1 ∧ ¬ r2.1 <+: r1.1) :
    (∀ p, p ∈ runWalkers roots ↔ ∃ r ∈ roots, ∃ q, Reach r.2 q ∧ p = r.1 ++ q)
    ∧ (runWalkers roots).Nodup := by
  induction roots with
  | nil =>
    constructor
    · intro p
      simp [runWalkers]
    · simp [runWalkers]
  | cons r rs ih =>
    have hwf' : ∀ r' ∈ rs, nodupNamesEntries r'.2 = true :=
      fun r' h' => hwf r' (List.mem_cons_of_mem r h')
    cases hsep with
    | cons hr hsep' =>
      obtain ⟨ihm, ihn⟩ := ih hwf' hsep'
      have hA := fun p => mem_discoverEntries r.2 r.1 p
      constructor
      · intro p
        rw [runWalkers_cons, List.mem_append, hA p, ihm p]
        constructor
        · rintro (⟨q, hq, rfl⟩ | ⟨r', hr', hq⟩)
          · exact ⟨r, List.mem_cons_self r rs, q, hq, rfl⟩
          · exact ⟨r', List.mem_cons_of_mem r hr', hq⟩
        · rintro ⟨r', hr', q, hq, rfl⟩
          rcases List.mem_cons.mp hr' with rfl | hr'
          · exact Or.inl ⟨q, hq, rfl⟩
          · exact Or.inr ⟨r', hr', q, hq, rfl⟩
      · rw [runWalkers_cons]
        refine List.Nodup.append
          (nodup_discoverEntries r.2 r.1 (hwf r (List.mem_cons_self r rs))) ihn ?_
        intro p hp1 hp2
        obtain ⟨q1, hq1, hpq1⟩ := (hA p).mp hp1
        obtain ⟨r', hr', q2, hq2, hpq2⟩ := (ihm p).mp hp2
        have hpre1 : r.1 <+: p := ⟨q1, hpq1.symm⟩
        have hpre2 : r'.1 <+: p := ⟨q2, hpq2.symm⟩
        have hcmp := List.prefix_or_prefix_of_prefix hpre1 hpre2
        have hrr := hr r' hr'
        rcases hcmp with hc | hc
        · exact hrr.1 hc
        · exact hrr.2 hc

theorem c4_amended_witness :
    (∀ r ∈ [((["a"] : List String),
              [("compile_commands.json", FsNode.file),
               ("sub", FsNode.dir [("compile_commands.json", FsNode.file)])]),
            (["b"], [("notes", FsNode.file)])],
        nodupNamesEntries r.2 = true)
    ∧ ([((["a"] : List String),
          [("compile_commands.json", FsNode.file),
           ("sub", FsNode.dir [("compile_commands.json", FsNode.file)])]),
        (["b"], [("notes", FsNode.file)])].Pairwise
        fun r1 r2 => ¬ r1.1 <+: r2.1 ∧ ¬ r2.1 <+: r1.1)
    ∧ (["a", "sub", "compile_commands.json"]
        ∈ runWalkers [((["a"] : List String),
              [("compile_commands.json", FsNode.file),
               ("sub", FsNode.dir [("compile_commands.json", FsNode.file)])]),
            (["b"], [("notes", FsNode.file)])]
        ↔ ∃ r ∈ [((["a"] : List String),
              [("compile_commands.json", FsNode.file),
               ("sub", FsNode.dir [("compile_commands.json", FsNode.file)])]),
            (["b"], [("notes", FsNode.file)])],
            ∃ q, Reach r.2 q ∧ ["a", "sub", "compile_commands.json"] = r.1 ++ q)
    ∧ (runWalkers [((["a"] : List String),
          [("compile_commands.json", FsNode.file),
           ("sub", FsNode.dir [("compile_commands.json", FsNode.file)])]),
        (["b"], [("notes", FsNode.file)])]).Nodup := by
  have hwf : ∀ r ∈ [((["a"] : List String),
        [("compile_commands.json", FsNode.file),
         ("sub", FsNode.dir [("compile_commands.json", FsNode.file)])]),
      (["b"], [("notes", FsNode.file)])], nodupNamesEntries r.2 = true := by
    intro r hr
    rcases List.mem_cons.mp hr with rfl | hr
    · simp [nodupNamesEntries]
    · rw [List.mem_singleton] at hr
      subst hr
      simp [nodupNamesEntries]
  have hsep : ([((["a"] : List String),
        [("compile_commands.json", FsNode.file),
         ("sub", FsNode.dir [("compile_commands.json", FsNode.file)])]),
      (["b"], [("notes", FsNode.file)])].Pairwise
      fun r1 r2 => ¬ r1.1 <+: r2.1 ∧ ¬ r2.1 <+: r1.1) := by
    simp [List.pairwise_cons]
  exact ⟨hwf, hsep,
    (c4_amended_discovery _ hwf hsep).1 ["a", "sub", "compile_commands.json"],
    (c4_amended_discovery _ hwf hsep).2⟩

/-- C5 evaluation at the failing input: a tree whose subdirectory `sub`
cannot be listed, hiding one fragment, alongside a healthy fragment.  The run
completes normally with exit success and the partial output containing only
the healthy fragment's element — it does not terminate with a fatal error as
the claim states. -/
theorem c5_walker_failure_not_fatal :
    runResult [("sub", FsNodeE.dirFail [("compile_commands.json",
                  FsNodeE.file ['[', '1', ']'])]),
               ("compile_commands.json", FsNodeE.file ['[', '2', ']'])]
      = some ['[', '2', ']']
    ∧ runResult [("sub", FsNodeE.dirFail [("compile_commands.json",
                  FsNodeE.file ['[', '1', ']'])]),
               ("compile_commands.json", FsNodeE.file ['[', '2', ']'])]
      ≠ none := by
  have e2 : extract ['[', '2', ']'] = ['2'] := extract_wrapped ['2']
  have heval : collectFragments [("sub", FsNodeE.dirFail [("compile_commands.json",
                  FsNodeE.file ['[', '1', ']'])]),
               ("compile_commands.json", FsNodeE.file ['[', '2', ']'])]
      = [['[', '2', ']']] := by
    simp [collectFragments, targetName]
  constructor
  · rw [runResult, heval]
    simp [mainOutput, writeFragments, e2]
  · rw [runResult]
    simp

/-- C8 counterexample: the queue is not unbounded — with 32 items in flight a
walker's send cannot complete without the aggregator draining the queue. -/
theorem c8_counterexample : sendCompletesWithoutWaiting 32 = false := by decide

/-- C8 amended: the queue created by main.rs has bounded capacity 32, and a
send completes without waiting exactly when fewer than 32 discovered paths are
in flight. -/
theorem c8_bounded_queue :
    queueCapacity = 32
    ∧ ∀ n : Nat, (sendCompletesWithoutWaiting n = true ↔ n < 32) := by
  refine ⟨rfl, fun n => ?_⟩
  simp [sendCompletesWithoutWaiting, queueCapacity]

/-- C2: the output file is opened with write and create but without truncate,
so when the prior file content is longer than the newly written bytes the
stale tail survives.  With prior content of seven bytes and zero delivered
fragments the run writes the two bytes of an empty array and leaves the file
holding stale garbage after them, not exactly the newly written bytes. -/
theorem c2_stale_tail_survives :
    finalFileContents ['[', '1', ',', '2', ',', '3', ']'] [] =
      ['[', ']', ',', '2', ',', '3', ']']
    ∧ mainOutput [] = ['[', ']']
    ∧ finalFileContents ['[', '1', ',', '2', ',', '3', ']'] [] ≠ mainOutput [] := by
  refine ⟨rfl, rfl, ?_⟩
  decide

end JoinCC

